import Mathlib

/-
Verification of the hotstring matching engine of spicy-strings
(`src/spicystrings/hotstrings.py`) against its natural-language
specification. The engine is embedded shallowly: the typed-character
buffer is a `List Char` (most recent first), the `CharTrie` registry is
an association list, and every operation of `HotstringDetector` is a
computable Lean function mirroring the Python code line by line.
-/

set_option maxRecDepth 8192

namespace SpicyStrings

/-- The per-definition option flags (`HotstringFlags` in the source):
`CASE_SENSITIVE`, `NO_END_CHAR`, `MATCH_SUFFIX`, `IGNORE_CASE`,
`NO_BACKSPACE`, `OMIT_END_CHAR`. -/
inductive HFlag where
  | caseSensitive
  | noEndChar
  | matchSuffix
  | ignoreCase
  | noBackspace
  | omitEndChar
deriving DecidableEq

/-- Modelled from the spec: `HotstringDefinition` is imported by
`hotstrings.py` from `actions.py`, but its declaration is missing from
the sources; the spec's data model gives it a pattern, an action and a
flag set. The action is modelled by the text it produces
(`action_out`), since the matching engine treats it as an opaque
producer of replacement text and never inspects it. -/
structure HotstringDefinition where
  hotstring : List Char
  action_out : List Char
  flags : List HFlag
deriving DecidableEq

/-- ASCII upper-case test, embedding Python's per-character `isupper`. -/
def is_ascii_upper (c : Char) : Bool := 'A' ≤ c && c ≤ 'Z'

/-- ASCII lower-case test, embedding Python's per-character `islower`. -/
def is_ascii_lower (c : Char) : Bool := 'a' ≤ c && c ≤ 'z'

/-- A character is cased if it is an ASCII letter. -/
def is_cased (c : Char) : Bool := is_ascii_upper c || is_ascii_lower c

/-- Lower-case one character (ASCII). -/
def char_lower (c : Char) : Char :=
  if is_ascii_upper c then Char.ofNat (c.toNat + 32) else c

/-- Upper-case one character (ASCII). -/
def char_upper (c : Char) : Char :=
  if is_ascii_lower c then Char.ofNat (c.toNat - 32) else c

/-- Python `str.lower` on the ASCII range. -/
def py_lower (s : List Char) : List Char := s.map char_lower

/-- Python `str.upper` on the ASCII range. -/
def py_upper (s : List Char) : List Char := s.map char_upper

/-- Python `str.isupper`: at least one cased character, and every cased
character upper-case. -/
def py_isupper (s : List Char) : Bool :=
  s.any is_cased && s.all (fun c => !is_cased c || is_ascii_upper c)

/-- Python `str.capitalize`: first character upper-cased and the whole
remainder lower-cased. -/
def py_capitalize : List Char → List Char
  | [] => []
  | c :: rest => char_upper c :: py_lower rest

/-- A value stored in the registry: the registration order (the index
assigned by `enumerate` in `_add_hotstrings`) and the definition. -/
abbrev RegValue := Nat × HotstringDefinition

/-- The `CharTrie` of `HotstringDetector._hotstring_map`, embedded as an
association list with unique keys. -/
abbrev Registry := List (List Char × RegValue)

/-- The key under which `_add_hotstrings` files a definition: the
reversed pattern, lower-cased unless `CASE_SENSITIVE` is set. -/
def norm_key (d : HotstringDefinition) : List Char :=
  let k := d.hotstring.reverse
  if HFlag.caseSensitive ∈ d.flags then k else py_lower k

/-- The trie assignment `self._hotstring_map[k] = v`: replace the entry
at `k` when present, otherwise add a new entry. -/
def trie_insert : Registry → List Char → RegValue → Registry
  | [], k, v => [(k, v)]
  | e :: m, k, v => if e.1 = k then (k, v) :: m else e :: trie_insert m k v

/-- Trie lookup of an exact key. -/
def trie_lookup : Registry → List Char → Option RegValue
  | [], _ => none
  | e :: m, k => if e.1 = k then some e.2 else trie_lookup m k

/-- The pygtrie `prefixes` iteration used by `_match_results`: every
stored key that is a prefix of `s` (the empty key included), paired with
its value, in order of increasing key length. -/
def trie_prefix_items (m : Registry) (s : List Char) : List (List Char × RegValue) :=
  (List.range (s.length + 1)).filterMap (fun n =>
    (trie_lookup m (s.take n)).map (fun v => (s.take n, v)))

/-- `HotstringDetector._add_hotstrings`: index each definition, in
registration order, under its normalized key. -/
def add_hotstrings (defs : List HotstringDefinition) : Registry :=
  defs.enum.foldl (fun m p => trie_insert m (norm_key p.2) (p.1, p.2)) []

/-- `HotstringDetector.MIN_BUFFER_SIZE`. -/
def MIN_BUFFER_SIZE : Nat := 128

/-- `HotstringDetector._calc_maxlen`: twice the longest pattern, but at
least `MIN_BUFFER_SIZE`. -/
def calc_maxlen (defs : List HotstringDefinition) : Nat :=
  max MIN_BUFFER_SIZE (((defs.map (fun d => d.hotstring.length)).foldr max 0) * 2)

/-- The read-only data of a `HotstringDetector`: the built registry, the
global end characters and the buffer capacity. The mutable buffer is
passed explicitly. -/
structure Detector where
  registry : Registry
  end_chars : List Char
  maxlen : Nat
deriving DecidableEq

/-- `HotstringDetector.__init__` (the registry build plus capacity
computation), with the buffer starting empty. -/
def mk_detector (defs : List HotstringDefinition) (end_chars : List Char) : Detector :=
  ⟨add_hotstrings defs, end_chars, calc_maxlen defs⟩

/-- Modelled from the spec: `GlobalHotstringOptions` is imported from
`actions.py` but not declared in the sources; the spec describes its
`end_chars` default as punctuation, whitespace and newline variants,
matching the default list in `ahk_parser.py`. -/
def default_end_chars : List Char :=
  "-()[]\x7b\x7d:;\x27\"/\\,.?!\n \t".toList

/-- `HotstringDetector._get_last_typed`: the most recent character (even
when it is an end character) followed by the run of characters up to,
but not including, the next end character. -/
def get_last_typed (end_chars : List Char) (stack : List Char) : List Char :=
  match stack with
  | [] => []
  | most_recent :: rest =>
      most_recent :: rest.takeWhile (fun c => !end_chars.contains c)

/-- `HotstringDetector._update_char_state`: pop the most recent
character on backspace (no-op when empty), otherwise push at the most
recent position, evicting the oldest character at capacity. -/
def update_char_state (maxlen : Nat) (c : Char) (stack : List Char) : List Char :=
  if c = '\x08' then stack.tail else (c :: stack).take maxlen

/-- `HotstringDetector._match_results`: every trie entry whose key is a
prefix of `to_match`, kept when the key covers all of `to_match` or the
definition has `MATCH_SUFFIX`; yields the priority, the matched slice of
`to_match` and the definition, in trie iteration order. -/
def match_results (m : Registry) (to_match : List Char) :
    List (Nat × List Char × HotstringDefinition) :=
  (trie_prefix_items m to_match).filterMap (fun e =>
    if to_match.length = e.1.length ∨ HFlag.matchSuffix ∈ e.2.2.flags then
      some (e.2.1, to_match.take e.1.length, e.2.2)
    else none)

/-- `HotstringDetector._match_results_case`: the exact-case results
followed by the case-folded results restricted to definitions without
`CASE_SENSITIVE`; a folded result reports the matched slice of the
original `typed` text. -/
def match_results_case (m : Registry) (typed : List Char) :
    List (Nat × List Char × HotstringDefinition) :=
  match_results m typed ++
  (match_results m (py_lower typed)).filterMap (fun r =>
    if HFlag.caseSensitive ∈ r.2.2.flags then none
    else some (r.1, typed.take r.2.1.length, r.2.2))

/-- `HotstringDetector._match_results_end_char`: when the most recent
character is an end character, first yield every case match of the rest
(the trigger text gains the end character in front and the end character
is reported); then yield every case match of the whole `typed` text
restricted to definitions with `NO_END_CHAR` (with an empty reported end
character). -/
def match_results_end_char (m : Registry) (end_chars : List Char)
    (typed : List Char) :
    List (Nat × List Char × HotstringDefinition × List Char) :=
  (match typed with
   | [] => []
   | most_recent :: rest =>
     if end_chars.contains most_recent then
       (match_results_case m rest).map (fun r =>
         (r.1, most_recent :: r.2.1, r.2.2, [most_recent]))
     else []) ++
  (match_results_case m typed).filterMap (fun r =>
    if HFlag.noEndChar ∈ r.2.2.flags then
      some (r.1, r.2.1, r.2.2, ([] : List Char))
    else none)

/-- The case-conformance step of `_prepare_action`, applied to a
produced text `s`: upper-case it when the trigger is entirely
upper-case; otherwise Python indexes the trigger's first character
(`none` embeds the `IndexError` on an empty trigger) and capitalizes `s`
when that character is upper-case. -/
def case_conform (trigger : List Char) (s : List Char) : Option (List Char) :=
  if py_isupper trigger then some (py_upper s)
  else
    match trigger with
    | [] => none
    | c :: _ => if is_ascii_upper c then some (py_capitalize s) else some s

/-- The text fed to case conformance by `_prepare_action`: the action's
output with the end character appended, unless `OMIT_END_CHAR` or
`NO_BACKSPACE` suppresses the append. -/
def produced_before_case (hd : HotstringDefinition) (end_char : List Char) :
    List Char :=
  if HFlag.omitEndChar ∉ hd.flags ∧ HFlag.noBackspace ∉ hd.flags then
    hd.action_out ++ end_char
  else hd.action_out

/-- `HotstringDetector._prepare_action`: compose the action with the
end-character and case-conformance transformers and pick the text to
erase. The result is `none` exactly when the Python code would raise
(indexing the first character of an empty trigger). -/
def prepare_action (trigger_forwards : List Char) (hd : HotstringDefinition)
    (end_char : List Char) : Option (List Char × List Char) :=
  let stage1 := produced_before_case hd end_char
  let stage2 :=
    if HFlag.ignoreCase ∈ hd.flags then some stage1
    else case_conform trigger_forwards stage1
  stage2.map (fun out2 =>
    (if HFlag.noBackspace ∈ hd.flags then [] else trigger_forwards, out2))

/-- The resolver step of `next_typed_char` on an updated buffer: nothing
when the last-typed text is empty, otherwise the first element of the
`_match_results_end_char` generator. -/
def detect (d : Detector) (stack : List Char) :
    Option (Nat × List Char × HotstringDefinition × List Char) :=
  if (get_last_typed d.end_chars stack).isEmpty then none
  else (match_results_end_char d.registry d.end_chars
      (get_last_typed d.end_chars stack)).head?

/-- `HotstringDetector.next_typed_char`: update the buffer, resolve, and
on a hit clear the buffer and prepare the action. The outer `Option` is
`none` when the Python code raises; the payload is the optional pair of
replaced text and composed replacement, plus the new buffer. -/
def next_typed_char (d : Detector) (c : Char) (stack : List Char) :
    Option (Option (List Char × List Char) × List Char) :=
  match detect d (update_char_state d.maxlen c stack) with
  | none => some (none, update_char_state d.maxlen c stack)
  | some r =>
      (prepare_action r.2.1.reverse r.2.2.1 r.2.2.2).map (fun a => (some a, []))

/-- Feed a sequence of characters to the detector, collecting the
per-event results and the final buffer; `none` when some event raises. -/
def run_detector (d : Detector) : List Char → List Char →
    Option (List (Option (List Char × List Char)) × List Char)
  | [], stack => some ([], stack)
  | c :: cs, stack =>
    match next_typed_char d c stack with
    | none => none
    | some r =>
        (run_detector d cs r.2).map (fun q => (r.1 :: q.1, q.2))

/-- The per-event results of feeding `input` from a fresh buffer. -/
def run_outputs (d : Detector) (input : List Char) :
    Option (List (Option (List Char × List Char))) :=
  (run_detector d input []).map (fun q => q.1)

/-- Buffer states a detector can actually be in: the fresh empty buffer
and anything produced from a reachable buffer by one event. -/
inductive Reachable (d : Detector) : List Char → Prop where
  | init : Reachable d []
  | step (c : Char) (s s2 : List Char) (out : Option (List Char × List Char)) :
      Reachable d s → next_typed_char d c s = some (out, s2) → Reachable d s2

/-- The last definition, in registration order, whose normalized key is
`k`: a left fold that keeps overwriting its accumulator with every
match, so the final match survives. -/
def last_registered (defs : List HotstringDefinition) (k : List Char) :
    Option RegValue :=
  defs.enum.foldl (fun acc p => if norm_key p.2 = k then some p else acc) none

/-- The spec claim's description of the capitalize branch of case
conformance: upper-case the first character and leave the remainder of
the produced text untouched. Declared for comparison with the code's
`py_capitalize`, which also lower-cases the remainder. -/
def capitalize_first_untouched : List Char → List Char
  | [] => []
  | c :: rest => char_upper c :: rest

/-- Looking up after an insert finds the new value at the inserted key
and leaves every other key unchanged. -/
theorem trie_lookup_insert (m : Registry) (k k2 : List Char) (v : RegValue) :
    trie_lookup (trie_insert m k v) k2 =
      if k2 = k then some v else trie_lookup m k2 := by
  induction m with
  | nil =>
      by_cases h : k2 = k
      · simp [trie_insert, trie_lookup, h]
      · simp [trie_insert, trie_lookup, h, Ne.symm h]
  | cons e m ih =>
      by_cases he : e.1 = k
      · by_cases h2 : k2 = k
        · simp [trie_insert, trie_lookup, he, h2]
        · simp [trie_insert, trie_lookup, he, h2, Ne.symm h2]
      · by_cases h2 : e.1 = k2
        · have hk2 : ¬ k2 = k := fun hh => he (h2.trans hh)
          simp [trie_insert, trie_lookup, he, h2, hk2]
        · simp [trie_insert, trie_lookup, he, h2, ih]

/-- Looking up after folding registrations into the trie equals a
last-match fold over the same registrations. -/
theorem trie_lookup_foldl_insert (ps : List RegValue) :
    ∀ (m : Registry) (k : List Char),
      trie_lookup
          (ps.foldl (fun m p => trie_insert m (norm_key p.2) (p.1, p.2)) m) k =
        ps.foldl (fun acc p => if norm_key p.2 = k then some p else acc)
          (trie_lookup m k) := by
  induction ps with
  | nil => intro m k; rfl
  | cons p ps ih =>
      intro m k
      simp only [List.foldl_cons]
      rw [ih]
      congr 1
      rw [trie_lookup_insert]
      by_cases h : norm_key p.2 = k
      · rw [if_pos h.symm, if_pos h]
      · rw [if_neg (fun hh => h hh.symm), if_neg h]

/-- Registry lookup is exactly the last registration under the key. -/
theorem trie_lookup_add_hotstrings (defs : List HotstringDefinition)
    (k : List Char) :
    trie_lookup (add_hotstrings defs) k = last_registered defs k := by
  have h0 : trie_lookup [] k = none := rfl
  unfold add_hotstrings last_registered
  rw [trie_lookup_foldl_insert, h0]

/-- The second component of an enumerated entry is in the list. -/
theorem mem_enumFrom_snd {α : Type _} :
    ∀ (l : List α) (n : Nat) (p : Nat × α), p ∈ List.enumFrom n l → p.2 ∈ l := by
  intro l
  induction l with
  | nil => intro n p h; simp [List.enumFrom] at h
  | cons a l ih =>
      intro n p h
      rw [show List.enumFrom n (a :: l) = (n, a) :: List.enumFrom (n + 1) l from rfl,
        List.mem_cons] at h
      rcases h with h | h
      · simp [h]
      · exact List.mem_cons_of_mem _ (ih (n + 1) p h)

/-- Every list member appears in the enumeration at some index. -/
theorem mem_enumFrom_of_mem {α : Type _} :
    ∀ (l : List α) (n : Nat) (a : α), a ∈ l →
      ∃ i, (i, a) ∈ List.enumFrom n l := by
  intro l
  induction l with
  | nil => intro n a h; simp at h
  | cons b l ih =>
      intro n a h
      rcases List.mem_cons.mp h with rfl | h2
      · exact ⟨n, by
          rw [show List.enumFrom n (a :: l) = (n, a) :: List.enumFrom (n + 1) l from rfl]
          exact List.mem_cons_self _ _⟩
      · rcases ih (n + 1) a h2 with ⟨i, hi⟩
        exact ⟨i, by
          rw [show List.enumFrom n (b :: l) = (n, b) :: List.enumFrom (n + 1) l from rfl]
          exact List.mem_cons_of_mem _ hi⟩

/-- A successful `last_registered` lookup returns a registered
definition whose normalized key is the looked-up key. -/
theorem last_registered_mem (defs : List HotstringDefinition) (k : List Char)
    (v : RegValue) (h : last_registered defs k = some v) :
    v.2 ∈ defs ∧ norm_key v.2 = k := by
  suffices hgen : ∀ (ps : List RegValue) (init : Option RegValue),
      ps.foldl (fun acc p => if norm_key p.2 = k then some p else acc) init
          = some v →
      init = some v ∨ (v ∈ ps ∧ norm_key v.2 = k) by
    unfold last_registered at h
    rcases hgen defs.enum none h with h0 | ⟨hm, hk⟩
    · exact absurd h0 (by simp)
    · exact ⟨mem_enumFrom_snd defs 0 v hm, hk⟩
  intro ps
  induction ps with
  | nil => intro init h0; exact Or.inl h0
  | cons p ps ih =>
      intro init h0
      simp only [List.foldl_cons] at h0
      rcases ih _ h0 with h1 | ⟨hm, hk⟩
      · by_cases hp : norm_key p.2 = k
        · rw [if_pos hp] at h1
          have hpv : p = v := Option.some.inj h1
          exact Or.inr ⟨by rw [← hpv]; exact List.mem_cons_self p ps,
            by rw [← hpv]; exact hp⟩
        · rw [if_neg hp] at h1
          exact Or.inl h1
      · exact Or.inr ⟨List.mem_cons_of_mem p hm, hk⟩

/-- `last_registered` succeeds exactly when some registered definition
normalizes to the key. -/
theorem last_registered_isSome (defs : List HotstringDefinition) (k : List Char) :
    (last_registered defs k).isSome = true ↔ ∃ d ∈ defs, norm_key d = k := by
  have hgen : ∀ (ps : List RegValue) (init : Option RegValue),
      (ps.foldl (fun acc p => if norm_key p.2 = k then some p else acc)
          init).isSome = true ↔
        init.isSome = true ∨ ∃ p ∈ ps, norm_key p.2 = k := by
    intro ps
    induction ps with
    | nil => intro init; simp
    | cons p ps ih =>
        intro init
        simp only [List.foldl_cons]
        rw [ih]
        by_cases hp : norm_key p.2 = k
        · constructor
          · intro _; exact Or.inr ⟨p, List.mem_cons_self p ps, hp⟩
          · intro _; rw [if_pos hp]; exact Or.inl rfl
        · rw [if_neg hp]
          constructor
          · rintro (h0 | ⟨q, hq, hqk⟩)
            · exact Or.inl h0
            · exact Or.inr ⟨q, List.mem_cons_of_mem p hq, hqk⟩
          · rintro (h0 | ⟨q, hq, hqk⟩)
            · exact Or.inl h0
            · rcases List.mem_cons.mp hq with rfl | hq2
              · exact absurd hqk hp
              · exact Or.inr ⟨q, hq2, hqk⟩
  unfold last_registered
  rw [hgen defs.enum none]
  constructor
  · rintro (h0 | ⟨p, hp, hpk⟩)
    · simp at h0
    · exact ⟨p.2, mem_enumFrom_snd defs 0 p hp, hpk⟩
  · rintro ⟨d, hd, hdk⟩
    rcases mem_enumFrom_of_mem defs 0 d hd with ⟨i, hi⟩
    exact Or.inr ⟨(i, d), hi, hdk⟩

/-- C6: if two definitions normalize to the same index key, the
later-registered one silently replaces the earlier one, so after the
build each key maps to exactly the last definition registered under
it. -/
theorem c6_last_registration_wins (defs : List HotstringDefinition)
    (k : List Char) :
    trie_lookup (add_hotstrings defs) k = last_registered defs k :=
  trie_lookup_add_hotstrings defs k

/-- Witness for C6 at a concrete collision: the case-insensitive
patterns YL and yl both normalize to the key ly, and the later
registration is the one the built registry returns. -/
theorem c6_last_registration_wins_witness :
    trie_lookup
        (add_hotstrings [⟨"YL".toList, "one".toList, []⟩,
          ⟨"yl".toList, "two".toList, []⟩]) "ly".toList =
      last_registered [⟨"YL".toList, "one".toList, []⟩,
        ⟨"yl".toList, "two".toList, []⟩] "ly".toList ∧
    last_registered [⟨"YL".toList, "one".toList, []⟩,
        ⟨"yl".toList, "two".toList, []⟩] "ly".toList =
      some (1, ⟨"yl".toList, "two".toList, []⟩) :=
  ⟨c6_last_registration_wins _ _, by decide⟩

/-- C5 counterexample: a case-insensitive definition with pattern A is
not indexed under its exact reversed key A, only under the folded key
a — the claim's additional exact-key entry does not exist. -/
theorem c5_no_exact_key_counterexample :
    trie_lookup (add_hotstrings [⟨"A".toList, "out".toList, []⟩]) "A".toList
        = none ∧
    trie_lookup (add_hotstrings [⟨"A".toList, "out".toList, []⟩]) "a".toList
        = some (0, ⟨"A".toList, "out".toList, []⟩) :=
  ⟨by decide, by decide⟩

/-- C5 (amended): registry build inserts exactly one entry per
definition, under the reversed pattern when `CaseSensitive` is present
and under the reversed lower-cased pattern otherwise; a key is occupied
exactly when some definition normalizes to it. -/
theorem c5_single_normalized_key (defs : List HotstringDefinition)
    (k : List Char) :
    (trie_lookup (add_hotstrings defs) k).isSome = true ↔
      ∃ d ∈ defs, norm_key d = k := by
  rw [trie_lookup_add_hotstrings]
  exact last_registered_isSome defs k

/-- Witness for C5 (amended): the folded key of pattern A is occupied. -/
theorem c5_single_normalized_key_witness :
    (trie_lookup (add_hotstrings [⟨"A".toList, "out".toList, []⟩])
        "a".toList).isSome = true :=
  (c5_single_normalized_key _ _).mpr
    ⟨⟨"A".toList, "out".toList, []⟩, by decide, by decide⟩

/-- C4 counterexample: building from a definition with an empty pattern
does not fail — the definition is inserted under the empty key, and the
detector then happily processes events with it (here it even fires). -/
theorem c4_build_accepts_empty_counterexample :
    trie_lookup (add_hotstrings [⟨[], "out".toList, []⟩]) [] =
      some (0, ⟨[], "out".toList, []⟩) ∧
    run_outputs (mk_detector [⟨[], "out".toList, []⟩] default_end_chars)
        ".".toList =
      some [some (".".toList, "out.".toList)] :=
  ⟨by decide, by decide⟩

/-- C4 (amended): registry build performs no validation: a malformed
definition with an empty pattern is accepted and indexed under the empty
key rather than rejected with a configuration error. -/
theorem c4_no_build_validation (d : HotstringDefinition)
    (h : d.hotstring = []) :
    trie_lookup (add_hotstrings [d]) [] = some (0, d) := by
  have hk : norm_key d = [] := by simp [norm_key, h, py_lower]
  show trie_lookup (trie_insert [] (norm_key d) (0, d)) [] = some (0, d)
  rw [hk]
  simp [trie_insert, trie_lookup]

/-- Witness for C4 (amended) at a concrete malformed definition. -/
theorem c4_no_build_validation_witness :
    trie_lookup (add_hotstrings [⟨[], "w".toList, [HFlag.ignoreCase]⟩]) [] =
      some (0, ⟨[], "w".toList, [HFlag.ignoreCase]⟩) :=
  c4_no_build_validation _ rfl

/-- C1 (code bug): with definitions abc (registration order 0, no
flags) and bc (order 1, MatchSuffix), typing a b c space makes both
definitions qualify — the second conjunct shows the order-0 definition
among the case-match results — yet the detector fires the order-1
definition bc: `next_typed_char` takes the first generator yield (trie
iteration order, shortest reversed key first) and discards the computed
registration order, contradicting the documented precedence of earlier
definitions. -/
theorem c1_registration_order_not_used :
    run_outputs (mk_detector [⟨"abc".toList, "alpha".toList, []⟩,
        ⟨"bc".toList, "bravo".toList, [HFlag.matchSuffix]⟩] default_end_chars)
      "abc ".toList =
      some [none, none, none, some ("bc ".toList, "bravo ".toList)] ∧
    (0, "cba".toList, (⟨"abc".toList, "alpha".toList, []⟩ : HotstringDefinition)) ∈
      match_results_case
        (add_hotstrings [⟨"abc".toList, "alpha".toList, []⟩,
          ⟨"bc".toList, "bravo".toList, [HFlag.matchSuffix]⟩]) "cba".toList :=
  ⟨by decide, by decide⟩

/-- C2 counterexample: the NoEndChar pattern a-space-b is never matched
while typing exactly a, space, b: the no-end-char rule reads only the
last word of the buffer, so a pattern spanning an end character cannot
complete, contrary to the claim's full-buffer reading. -/
theorem c2_spanning_pattern_counterexample :
    run_outputs (mk_detector [⟨"a b".toList, "u".toList, [HFlag.noEndChar]⟩]
        default_end_chars) "a b".toList = some [none, none, none] := by
  decide

/-- C2 (amended): the resolver — the no-end-char rule included — reads
only the last-typed word: any two buffers with the same
`get_last_typed` resolve identically; a NoEndChar pattern whose end
character is final (such as a-dot) can still fire, because the most
recent character is always part of the last-typed word. -/
theorem c2_last_word_scope :
    (∀ (d : Detector) (s1 s2 : List Char),
        get_last_typed d.end_chars s1 = get_last_typed d.end_chars s2 →
        detect d s1 = detect d s2) ∧
    run_outputs (mk_detector [⟨"a.".toList, "u".toList, [HFlag.noEndChar]⟩]
        default_end_chars) "a.".toList =
      some [none, some ("a.".toList, "u".toList)] := by
  constructor
  · intro d s1 s2 h
    unfold detect
    rw [h]
  · decide

/-- Witness for C2 (amended): two buffers that differ only beyond the
most recent end character resolve identically. -/
theorem c2_last_word_scope_witness :
    detect (mk_detector [⟨"a.".toList, "u".toList, [HFlag.noEndChar]⟩]
        default_end_chars) ['a', '.', 'x'] =
      detect (mk_detector [⟨"a.".toList, "u".toList, [HFlag.noEndChar]⟩]
        default_end_chars) ['a', '.', 'y'] :=
  c2_last_word_scope.1 _ _ _ (by decide)

/-- C8 counterexample: trigger Yl with registered output yIELD — the
code applies Python capitalize, which also lower-cases the remainder,
producing Yield; the claim's untouched-remainder description predicts
YIELD instead. -/
theorem c8_capitalize_remainder_counterexample :
    run_outputs (mk_detector [⟨"yl".toList, "yIELD".toList, []⟩]
        default_end_chars) "Yl ".toList =
      some [none, none, some ("Yl ".toList, "Yield ".toList)] ∧
    capitalize_first_untouched "yIELD ".toList = "YIELD ".toList ∧
    "Yield ".toList ≠ "YIELD ".toList :=
  ⟨by decide, by decide, by decide⟩

/-- C8 (amended): without IgnoreCase the composed replacement is the
case conformance of the produced text: upper-cased when the trigger is
entirely upper-case; Python-capitalized — first character upper-cased
and the remainder lower-cased — when only the trigger's first character
is upper-case; otherwise untouched. -/
theorem c8_case_conformance (hd : HotstringDefinition)
    (trigger end_char : List Char)
    (h1 : HFlag.ignoreCase ∉ hd.flags) (h2 : trigger ≠ []) :
    prepare_action trigger hd end_char =
      some (if HFlag.noBackspace ∈ hd.flags then [] else trigger,
        if py_isupper trigger then py_upper (produced_before_case hd end_char)
        else if is_ascii_upper trigger.headI then
          py_capitalize (produced_before_case hd end_char)
        else produced_before_case hd end_char) := by
  cases trigger with
  | nil => exact absurd rfl h2
  | cons c t =>
      simp only [prepare_action, case_conform]
      rw [if_neg h1]
      by_cases hu : py_isupper (c :: t)
      · simp [hu, List.headI]
      · by_cases hc : is_ascii_upper c
        · simp [hu, hc, List.headI]
        · simp [hu, hc, List.headI]

/-- Witness for C8 (amended) at a concrete trigger and definition. -/
theorem c8_case_conformance_witness :
    prepare_action "Yl ".toList ⟨"yl".toList, "yIELD".toList, []⟩ [' '] =
      some (if HFlag.noBackspace ∈
          (⟨"yl".toList, "yIELD".toList, []⟩ : HotstringDefinition).flags
          then [] else "Yl ".toList,
        if py_isupper "Yl ".toList then
          py_upper (produced_before_case ⟨"yl".toList, "yIELD".toList, []⟩ [' '])
        else if is_ascii_upper ("Yl ".toList).headI then
          py_capitalize
            (produced_before_case ⟨"yl".toList, "yIELD".toList, []⟩ [' '])
        else produced_before_case ⟨"yl".toList, "yIELD".toList, []⟩ [' ']) :=
  c8_case_conformance _ _ _ (by decide) (by decide)

set_option maxHeartbeats 1000000 in
/-- C3 counterexample: with the single NoEndChar definition ab, typing
w a b and then 126 dots (the last of which evicts the blocker w at
capacity 128), and then backspacing 125 times, the final backspace
event exposes a dot in front of the completed pattern and fires through
the end-char rule: the detector erases ab-dot (end character included),
and the resolver at the corresponding buffer reports the non-empty end
character dot for the NoEndChar definition. -/
theorem c3_noendchar_rule1_counterexample :
    run_outputs (mk_detector [⟨"ab".toList, "o".toList, [HFlag.noEndChar]⟩]
        default_end_chars)
      (['w', 'a', 'b'] ++ List.replicate 126 '.' ++
        List.replicate 125 '\x08') =
      some (List.replicate 253 none ++ [some ("ab.".toList, "o.".toList)]) ∧
    detect (mk_detector [⟨"ab".toList, "o".toList, [HFlag.noEndChar]⟩]
        default_end_chars) ['.', 'b', 'a'] =
      some (0, ['.', 'b', 'a'],
        ⟨"ab".toList, "o".toList, [HFlag.noEndChar]⟩, ['.']) :=
  ⟨by decide, by decide⟩

/-- C3 (amended): the end-char rule does not restrict to definitions
lacking NoEndChar: whenever the most recent character is an end
character, every case match of the rest is yielded with that end
character regardless of the definition's flags, so a NoEndChar
definition can produce an end-char-qualified trigger. -/
theorem c3_rule1_admits_all_flags (m : Registry) (end_chars : List Char)
    (mr : Char) (rest : List Char) (r : Nat × List Char × HotstringDefinition)
    (hmr : end_chars.contains mr = true)
    (hr : r ∈ match_results_case m rest) :
    (r.1, mr :: r.2.1, r.2.2, [mr]) ∈
      match_results_end_char m end_chars (mr :: rest) := by
  unfold match_results_end_char
  apply List.mem_append.mpr
  left
  simp only [hmr, if_true]
  exact List.mem_map_of_mem _ hr

/-- Witness for C3 (amended): the NoEndChar definition ab is yielded by
the end-char rule with end character dot. -/
theorem c3_rule1_admits_all_flags_witness :
    ((0 : Nat), '.' :: "ba".toList,
        (⟨"ab".toList, "o".toList, [HFlag.noEndChar]⟩ : HotstringDefinition),
        ['.']) ∈
      match_results_end_char
        (add_hotstrings [⟨"ab".toList, "o".toList, [HFlag.noEndChar]⟩])
        default_end_chars ('.' :: "ba".toList) :=
  c3_rule1_admits_all_flags _ _ _ _
    (0, "ba".toList, ⟨"ab".toList, "o".toList, [HFlag.noEndChar]⟩)
    (by decide) (by decide)

/-- The resolver finds nothing on the empty buffer. -/
theorem detect_nil (d : Detector) : detect d [] = none := rfl

/-- Every reachable buffer resolves to nothing: a buffer survives an
event only when that event's resolution came up empty, and a firing
event clears the buffer. -/
theorem reachable_detect_none (d : Detector) (s : List Char)
    (h : Reachable d s) : detect d s = none := by
  induction h with
  | init => exact detect_nil d
  | step c s s2 out hr heq ih =>
      unfold next_typed_char at heq
      cases hdet : detect d (update_char_state d.maxlen c s) with
      | none =>
          rw [hdet] at heq
          have h2 : s2 = update_char_state d.maxlen c s := by
            have := (Prod.mk.injEq _ _ _ _).mp (Option.some.inj heq)
            exact this.2.symm
          rw [h2]
          exact hdet
      | some r =>
          rw [hdet] at heq
          rcases Option.map_eq_some'.mp heq with ⟨a, _, ha2⟩
          have h2 : s2 = [] := ((Prod.mk.injEq _ _ _ _).mp ha2).2.symm
          rw [h2]
          exact detect_nil d

/-- C9: from any reachable buffer below capacity, a non-backspace
character whose event returns no trigger pushes exactly that character,
and the following backspace event returns no trigger and restores the
buffer exactly; a backspace on the empty buffer is a no-op. -/
theorem c9_backspace_undo (d : Detector) (s : List Char) (c : Char)
    (hreach : Reachable d s) (hlen : s.length < d.maxlen) (hc : c ≠ '\x08')
    (hnone : ∃ s2, next_typed_char d c s = some (none, s2)) :
    next_typed_char d c s = some (none, c :: s) ∧
    next_typed_char d '\x08' (c :: s) = some (none, s) ∧
    next_typed_char d '\x08' ([] : List Char) = some (none, ([] : List Char)) := by
  have hupd : update_char_state d.maxlen c s = c :: s := by
    unfold update_char_state
    rw [if_neg hc]
    exact List.take_of_length_le (by simp; omega)
  obtain ⟨s2, h2⟩ := hnone
  have hdet : detect d (c :: s) = none := by
    cases hd2 : detect d (c :: s) with
    | none => rfl
    | some r =>
        unfold next_typed_char at h2
        rw [hupd, hd2] at h2
        rcases Option.map_eq_some'.mp h2 with ⟨a, _, ha2⟩
        have := ((Prod.mk.injEq _ _ _ _).mp ha2).1
        simp at this
  refine ⟨?_, ?_, ?_⟩
  · unfold next_typed_char
    rw [hupd, hdet]
  · have hupd2 : update_char_state d.maxlen '\x08' (c :: s) = s := by
      unfold update_char_state
      rw [if_pos rfl]
      rfl
    unfold next_typed_char
    rw [hupd2, reachable_detect_none d s hreach]
  · have hupd3 : update_char_state d.maxlen '\x08' [] = [] := by
      unfold update_char_state
      rw [if_pos rfl]
      rfl
    unfold next_typed_char
    rw [hupd3, detect_nil d]

/-- Witness for C9 at a concrete reachable single-character buffer. -/
theorem c9_backspace_undo_witness :
    next_typed_char (mk_detector [⟨"yl".toList, "yield".toList, []⟩]
        default_end_chars) 'q' ['x'] = some (none, ['q', 'x']) ∧
    next_typed_char (mk_detector [⟨"yl".toList, "yield".toList, []⟩]
        default_end_chars) '\x08' ['q', 'x'] = some (none, ['x']) ∧
    next_typed_char (mk_detector [⟨"yl".toList, "yield".toList, []⟩]
        default_end_chars) '\x08' ([] : List Char) =
      some (none, ([] : List Char)) :=
  c9_backspace_undo _ ['x'] 'q'
    (Reachable.step 'x' [] ['x'] none Reachable.init (by decide))
    (by decide) (by decide) ⟨['q', 'x'], by decide⟩

/-- The head of a list, when present, is a member. -/
theorem head?_mem {α : Type _} {l : List α} {a : α} (h : l.head? = some a) :
    a ∈ l := by
  cases l with
  | nil => simp at h
  | cons b t =>
      have hb : b = a := by simpa using h
      rw [← hb]
      exact List.mem_cons_self _ _

/-- Normalizing a key preserves the pattern length. -/
theorem norm_key_length (d : HotstringDefinition) :
    (norm_key d).length = d.hotstring.length := by
  unfold norm_key
  split <;> simp [py_lower]

/-- Structure of a `_match_results` yield: it comes from a stored key
that is a prefix of the text, and its trigger is the corresponding
slice. -/
theorem match_results_spec (m : Registry) (to_match : List Char)
    (r : Nat × List Char × HotstringDefinition)
    (h : r ∈ match_results m to_match) :
    ∃ k, trie_lookup m k = some (r.1, r.2.2) ∧
      r.2.1 = to_match.take k.length ∧ k.length ≤ to_match.length := by
  unfold match_results at h
  rcases List.mem_filterMap.mp h with ⟨e, he, hfe⟩
  by_cases hc : to_match.length = e.1.length ∨ HFlag.matchSuffix ∈ e.2.2.flags
  · rw [if_pos hc] at hfe
    have hre : (e.2.1, to_match.take e.1.length, e.2.2) = r := Option.some.inj hfe
    unfold trie_prefix_items at he
    rcases List.mem_filterMap.mp he with ⟨n, _, hmapped⟩
    rcases Option.map_eq_some'.mp hmapped with ⟨v, hv, hev⟩
    have he1 : e.1 = to_match.take n := ((Prod.mk.injEq _ _ _ _).mp hev).1.symm
    have he2 : e.2 = v := ((Prod.mk.injEq _ _ _ _).mp hev).2.symm
    refine ⟨e.1, ?_, ?_, ?_⟩
    · rw [← hre]
      show trie_lookup m e.1 = some (e.2.1, e.2.2)
      rw [he1, he2]
      exact hv
    · rw [← hre]
    · rw [he1, List.length_take]
      exact Nat.min_le_right _ _
  · rw [if_neg hc] at hfe
    exact absurd hfe (by simp)

/-- A `_match_results` yield over the built registry names a registered
definition, and its trigger is non-empty when that pattern is. -/
theorem match_results_mem_defs (defs : List HotstringDefinition)
    (to_match : List Char) (r : Nat × List Char × HotstringDefinition)
    (h : r ∈ match_results (add_hotstrings defs) to_match) :
    r.2.2 ∈ defs ∧ (r.2.2.hotstring ≠ [] → r.2.1 ≠ []) := by
  rcases match_results_spec _ _ _ h with ⟨k, hlook, htrig, hkle⟩
  rw [trie_lookup_add_hotstrings] at hlook
  have hmem := last_registered_mem defs k (r.1, r.2.2) hlook
  refine ⟨hmem.1, fun hne htn => ?_⟩
  have hkl : k.length = r.2.2.hotstring.length := by
    rw [← hmem.2, norm_key_length]
  rw [htrig] at htn
  rcases List.take_eq_nil_iff.mp htn with h0 | h0
  · exact hne (List.length_eq_zero.mp (by rw [← hkl]; exact h0))
  · rw [h0] at hkle
    simp at hkle
    exact hne (List.length_eq_zero.mp (by rw [← hkl, hkle]; rfl))

/-- A `_match_results_case` yield over the built registry names a
registered definition, and its trigger is non-empty when every
registered pattern is. -/
theorem match_results_case_mem_defs (defs : List HotstringDefinition)
    (typed : List Char) (r : Nat × List Char × HotstringDefinition)
    (h : r ∈ match_results_case (add_hotstrings defs) typed) :
    r.2.2 ∈ defs ∧ ((∀ d ∈ defs, d.hotstring ≠ []) → r.2.1 ≠ []) := by
  unfold match_results_case at h
  rcases List.mem_append.mp h with h | h
  · rcases match_results_mem_defs defs typed r h with ⟨hm, ht⟩
    exact ⟨hm, fun hall => ht (hall _ hm)⟩
  · rcases List.mem_filterMap.mp h with ⟨r0, hr0, hf⟩
    by_cases hcs : HFlag.caseSensitive ∈ r0.2.2.flags
    · rw [if_pos hcs] at hf
      exact absurd hf (by simp)
    · rw [if_neg hcs] at hf
      have hr : (r0.1, typed.take r0.2.1.length, r0.2.2) = r := Option.some.inj hf
      rcases match_results_mem_defs defs (py_lower typed) r0 hr0 with ⟨hm0, ht0⟩
      constructor
      · rw [← hr]
        exact hm0
      · intro hall
        have h1 : r0.2.1 ≠ [] := ht0 (hall _ hm0)
        rw [← hr]
        intro htn
        rcases List.take_eq_nil_iff.mp htn with h0 | h0
        · exact h1 (List.length_eq_zero.mp h0)
        · rcases match_results_spec _ _ _ hr0 with ⟨k, _, htrig, _⟩
          rw [show py_lower typed = [] from by rw [h0]; rfl] at htrig
          exact h1 (by rw [htrig]; simp)

/-- Every yield of the end-char generator carries a non-empty trigger
when every registered pattern is non-empty. -/
theorem match_results_end_char_trigger (defs : List HotstringDefinition)
    (end_chars typed : List Char)
    (r : Nat × List Char × HotstringDefinition × List Char)
    (h : r ∈ match_results_end_char (add_hotstrings defs) end_chars typed)
    (hall : ∀ d ∈ defs, d.hotstring ≠ []) : r.2.1 ≠ [] := by
  unfold match_results_end_char at h
  rcases List.mem_append.mp h with h | h
  · cases typed with
    | nil => simp at h
    | cons mr rest =>
        have h2 : r ∈ (if end_chars.contains mr = true then
            (match_results_case (add_hotstrings defs) rest).map
              (fun q => (q.1, mr :: q.2.1, q.2.2, [mr]))
          else []) := h
        by_cases hc2 : end_chars.contains mr = true
        · rw [if_pos hc2] at h2
          rcases List.mem_map.mp h2 with ⟨q, _, hq⟩
          rw [← hq]
          simp
        · rw [if_neg hc2] at h2
          simp at h2
  · rcases List.mem_filterMap.mp h with ⟨q, hq, hfq⟩
    by_cases hn : HFlag.noEndChar ∈ q.2.2.flags
    · rw [if_pos hn] at hfq
      have hqr : (q.1, q.2.1, q.2.2, ([] : List Char)) = r := Option.some.inj hfq
      rw [← hqr]
      exact (match_results_case_mem_defs defs typed q hq).2 hall
    · rw [if_neg hn] at hfq
      exact absurd hfq (by simp)

/-- Preparing an action never fails on a non-empty trigger. -/
theorem prepare_action_isSome (t : List Char) (hd : HotstringDefinition)
    (e : List Char) (h : t ≠ []) :
    (prepare_action t hd e).isSome = true := by
  cases t with
  | nil => exact absurd rfl h
  | cons c rest =>
      simp only [prepare_action, case_conform]
      by_cases hi : HFlag.ignoreCase ∈ hd.flags
      · simp [hi]
      · by_cases hu : py_isupper (c :: rest)
        · simp [hi, hu]
        · by_cases hc : is_ascii_upper c
          · simp [hi, hu, hc]
          · simp [hi, hu, hc]

/-- C10: when every registered pattern is non-empty, processing any
character in any buffer state is total — no event raises; and without
that precondition the guarantee fails: an empty MatchSuffix NoEndChar
pattern makes the very first event raise while indexing the first
character of its empty trigger. -/
theorem c10_match_time_totality :
    (∀ (defs : List HotstringDefinition) (end_chars : List Char)
        (s : List Char) (c : Char),
        (∀ d ∈ defs, d.hotstring ≠ []) →
        (next_typed_char (mk_detector defs end_chars) c s).isSome = true) ∧
    next_typed_char (mk_detector [⟨[], "o".toList,
        [HFlag.matchSuffix, HFlag.noEndChar]⟩] default_end_chars) 'x' [] =
      none := by
  constructor
  · intro defs EC s c hall
    unfold next_typed_char
    cases hdet : detect (mk_detector defs EC)
        (update_char_state (mk_detector defs EC).maxlen c s) with
    | none => rfl
    | some r =>
        have hr : r ∈ match_results_end_char (add_hotstrings defs) EC
            (get_last_typed EC
              (update_char_state (mk_detector defs EC).maxlen c s)) := by
          unfold detect at hdet
          by_cases he : (get_last_typed (mk_detector defs EC).end_chars
              (update_char_state (mk_detector defs EC).maxlen c s)).isEmpty = true
          · rw [if_pos he] at hdet
            exact absurd hdet (by simp)
          · rw [if_neg he] at hdet
            exact head?_mem hdet
        have htrig := match_results_end_char_trigger defs EC _ r hr hall
        have hrev : r.2.1.reverse ≠ [] := by simp [htrig]
        have hps := prepare_action_isSome r.2.1.reverse r.2.2.1 r.2.2.2 hrev
        cases hpa : prepare_action r.2.1.reverse r.2.2.1 r.2.2.2 with
        | none => rw [hpa] at hps; simp at hps
        | some a =>
            show ((prepare_action r.2.1.reverse r.2.2.1 r.2.2.2).map
              (fun a => (some a, ([] : List Char)))).isSome = true
            rw [hpa]
            rfl
  · decide

/-- Witness for C10's totality half at a concrete detector, state and
character. -/
theorem c10_match_time_totality_witness :
    (next_typed_char (mk_detector [⟨"yl".toList, "yield".toList, []⟩]
        default_end_chars) 'q' []).isSome = true :=
  c10_match_time_totality.1 [⟨"yl".toList, "yield".toList, []⟩]
    default_end_chars [] 'q' (by decide)

/-- The registry component of a freshly built detector. -/
@[simp]
theorem mk_detector_registry (defs : List HotstringDefinition) (EC : List Char) :
    (mk_detector defs EC).registry = add_hotstrings defs := rfl

/-- The end-character component of a freshly built detector. -/
@[simp]
theorem mk_detector_end_chars (defs : List HotstringDefinition) (EC : List Char) :
    (mk_detector defs EC).end_chars = EC := rfl

/-- The capacity component of a freshly built detector. -/
@[simp]
theorem mk_detector_maxlen (defs : List HotstringDefinition) (EC : List Char) :
    (mk_detector defs EC).maxlen = calc_maxlen defs := rfl

/-- The capacity computed for a single definition. -/
theorem calc_maxlen_single (P out : List Char) (fl : List HFlag) :
    calc_maxlen [⟨P, out, fl⟩] = max MIN_BUFFER_SIZE (P.length * 2) := by
  simp [calc_maxlen, Nat.max_zero]

/-- Building from one case-insensitive definition stores exactly its
folded reversed key. -/
theorem single_registry (P out : List Char) (fl : List HFlag)
    (hcs : HFlag.caseSensitive ∉ fl) :
    add_hotstrings [⟨P, out, fl⟩] =
      [(py_lower P.reverse, (0, ⟨P, out, fl⟩))] := by
  show trie_insert [] (norm_key ⟨P, out, fl⟩) (0, ⟨P, out, fl⟩) = _
  rw [show norm_key ⟨P, out, fl⟩ = py_lower P.reverse from by
    simp [norm_key, hcs]]
  rfl

/-- Lookup in a one-entry registry. -/
theorem trie_lookup_single (k : List Char) (v : RegValue) (q : List Char) :
    trie_lookup [(k, v)] q = if k = q then some v else none := rfl

/-- A filterMap over an initial range with a single productive index
collapses to that index's output. -/
theorem filterMap_range_single {β : Type _} (f : Nat → Option β) :
    ∀ (N j : Nat), j < N → (∀ n, n < N → n ≠ j → f n = none) →
      (List.range N).filterMap f = (f j).toList := by
  intro N
  induction N with
  | zero => intro j hj h; exact absurd hj (Nat.not_lt_zero j)
  | succ N ih =>
      intro j hj h
      rw [List.range_succ, List.filterMap_append]
      by_cases hjN : j = N
      · subst hjN
        have h1 : (List.range j).filterMap f = [] :=
          List.filterMap_eq_nil_iff.mpr (fun n hn =>
            h n (Nat.lt_succ_of_lt (List.mem_range.mp hn))
              (Nat.ne_of_lt (List.mem_range.mp hn)))
        rw [h1]
        cases hf : f j <;> simp [hf]
      · have hj2 : j < N := by omega
        rw [ih j hj2 (fun n hn hne => h n (Nat.lt_succ_of_lt hn) hne)]
        have hN : f N = none := h N (Nat.lt_succ_self N) (fun hh => hjN hh.symm)
        simp [hN]

/-- The prefix walk over a one-entry registry finds the key exactly when
the text starts with it. -/
theorem trie_prefix_items_single (k : List Char) (v : RegValue) (s : List Char) :
    trie_prefix_items [(k, v)] s =
      if s.take k.length = k then [(k, v)] else [] := by
  unfold trie_prefix_items
  by_cases h : s.take k.length = k
  · have hkle : k.length ≤ s.length := by
      have h2 := congrArg List.length h
      rw [List.length_take] at h2
      rw [← h2]
      exact Nat.min_le_right _ _
    have hside : ∀ n, n < s.length + 1 → n ≠ k.length →
        (trie_lookup [(k, v)] (s.take n)).map (fun v2 => (s.take n, v2)) =
          none := by
      intro n hn hne
      have hn2 : n ≤ s.length := by omega
      have hk : ¬ (k = s.take n) := by
        intro hk
        have h3 := congrArg List.length hk
        rw [List.length_take, Nat.min_eq_left hn2] at h3
        exact hne h3.symm
      rw [trie_lookup_single, if_neg hk]
      rfl
    rw [if_pos h,
      filterMap_range_single _ (s.length + 1) k.length (by omega) hside]
    rw [show trie_lookup [(k, v)] (s.take k.length) = some v from by
      rw [trie_lookup_single, if_pos h.symm]]
    simp [h]
  · rw [if_neg h]
    apply List.filterMap_eq_nil_iff.mpr
    intro n hn
    have hn2 : n ≤ s.length := by
      have := List.mem_range.mp hn
      omega
    have hk : ¬ (k = s.take n) := by
      intro hk
      have h3 := congrArg List.length hk
      rw [List.length_take, Nat.min_eq_left hn2] at h3
      apply h
      rw [h3]
      exact hk.symm
    rw [trie_lookup_single, if_neg hk]
    rfl

/-- Exact-case match results of the single flagless definition against
its own reversed pattern. -/
theorem match_results_exact_single (P out : List Char) :
    match_results [(py_lower P.reverse, (0, ⟨P, out, []⟩))] P.reverse =
      if P.reverse = py_lower P.reverse then
        [(0, P.reverse, ⟨P, out, []⟩)] else [] := by
  unfold match_results
  rw [trie_prefix_items_single]
  have hlen : (py_lower P.reverse).length = P.reverse.length := by
    simp [py_lower]
  have htake : P.reverse.take (py_lower P.reverse).length = P.reverse := by
    rw [hlen]
    exact List.take_length _
  by_cases h : P.reverse = py_lower P.reverse
  · rw [if_pos (htake.trans h), if_pos h]
    simp [hlen, htake]
  · rw [if_neg (fun hc => h (htake.symm.trans hc)), if_neg h]
    rfl

/-- Folded match results of the single flagless definition against its
folded reversed pattern. -/
theorem match_results_folded_single (P out : List Char) :
    match_results [(py_lower P.reverse, (0, ⟨P, out, []⟩))]
        (py_lower P.reverse) =
      [(0, py_lower P.reverse, ⟨P, out, []⟩)] := by
  unfold match_results
  rw [trie_prefix_items_single, if_pos (List.take_length _)]
  simp [List.take_length]

/-- Combined case match results of the single flagless definition: the
folded branch always matches and reports the typed-case trigger. -/
theorem match_results_case_single (P out : List Char) :
    match_results_case [(py_lower P.reverse, (0, ⟨P, out, []⟩))] P.reverse =
      (if P.reverse = py_lower P.reverse then
        [(0, P.reverse, ⟨P, out, []⟩)] else []) ++
      [(0, P.reverse, ⟨P, out, []⟩)] := by
  unfold match_results_case
  rw [match_results_exact_single, match_results_folded_single]
  congr 1
  have hlen : (py_lower P.reverse).length = P.reverse.length := by
    simp [py_lower]
  simp [hlen, List.take_length]

/-- The head of the case match results of the single flagless
definition. -/
theorem match_results_case_single_head (P out : List Char) :
    (match_results_case [(py_lower P.reverse, (0, ⟨P, out, []⟩))]
        P.reverse).head? =
      some (0, P.reverse, ⟨P, out, []⟩) := by
  rw [match_results_case_single]
  by_cases h : P.reverse = py_lower P.reverse
  · rw [if_pos h]
    rfl
  · rw [if_neg h]
    rfl

/-- A non-backspace, non-end character event over a registry of
definitions all lacking NoEndChar never fires and pushes the
character. -/
theorem next_typed_char_none_step (defs : List HotstringDefinition)
    (EC : List Char) (hnec : ∀ df ∈ defs, HFlag.noEndChar ∉ df.flags)
    (c : Char) (s : List Char)
    (hc : EC.contains c = false) (hbs : c ≠ '\x08')
    (hlen : s.length < calc_maxlen defs) :
    next_typed_char (mk_detector defs EC) c s = some (none, c :: s) := by
  have hupd : update_char_state (mk_detector defs EC).maxlen c s = c :: s := by
    unfold update_char_state
    rw [if_neg hbs]
    apply List.take_of_length_le
    rw [mk_detector_maxlen]
    simp only [List.length_cons]
    omega
  have htyped : get_last_typed EC (c :: s) =
      c :: s.takeWhile (fun x => !EC.contains x) := rfl
  have hlist : match_results_end_char (add_hotstrings defs) EC
      (c :: s.takeWhile (fun x => !EC.contains x)) = [] := by
    have h1 : match_results_end_char (add_hotstrings defs) EC
        (c :: s.takeWhile (fun x => !EC.contains x)) =
        (if EC.contains c = true then
          (match_results_case (add_hotstrings defs)
            (s.takeWhile (fun x => !EC.contains x))).map
            (fun q => (q.1, c :: q.2.1, q.2.2, [c]))
        else []) ++
        (match_results_case (add_hotstrings defs)
          (c :: s.takeWhile (fun x => !EC.contains x))).filterMap
          (fun q => if HFlag.noEndChar ∈ q.2.2.flags then
            some (q.1, q.2.1, q.2.2, ([] : List Char)) else none) := rfl
    rw [h1, if_neg (fun hh => by rw [hc] at hh; exact Bool.false_ne_true hh),
      List.nil_append]
    apply List.filterMap_eq_nil_iff.mpr
    intro q hq
    rw [if_neg (hnec _ (match_results_case_mem_defs defs _ q hq).1)]
  have hdet : detect (mk_detector defs EC) (c :: s) = none := by
    unfold detect
    rw [mk_detector_end_chars, mk_detector_registry, htyped, hlist]
    rfl
  unfold next_typed_char
  rw [hupd, hdet]

/-- Running a detector over an appended input splits into two runs. -/
theorem run_detector_append (d : Detector) (xs ys : List Char) :
    ∀ (s : List Char),
      run_detector d (xs ++ ys) s =
        (run_detector d xs s).bind (fun q =>
          (run_detector d ys q.2).map (fun q2 => (q.1 ++ q2.1, q2.2))) := by
  induction xs with
  | nil =>
      intro s
      show run_detector d ys s = _
      cases h : run_detector d ys s <;> simp [run_detector, h]
  | cons c xs ih =>
      intro s
      show run_detector d (c :: (xs ++ ys)) s = _
      cases hnx : next_typed_char d c s with
      | none => simp [run_detector, hnx]
      | some r =>
          simp only [run_detector, hnx]
          rw [ih r.2]
          cases hr1 : run_detector d xs r.2 with
          | none => simp
          | some q =>
              cases hr2 : run_detector d ys q.2 with
              | none => simp [hr2, Function.comp]
              | some q2 => simp [hr2, Function.comp]

/-- Running a detector over a single character. -/
theorem run_detector_single (d : Detector) (c : Char) (s : List Char) :
    run_detector d [c] s =
      (next_typed_char d c s).map (fun r => ([r.1], r.2)) := by
  cases h : next_typed_char d c s with
  | none => simp [run_detector, h]
  | some r => simp [run_detector, h]

/-- Typing a run of ordinary characters over a registry without
NoEndChar definitions never fires and stacks the run in reverse. -/
theorem run_no_fire (defs : List HotstringDefinition) (EC : List Char)
    (hnec : ∀ df ∈ defs, HFlag.noEndChar ∉ df.flags) :
    ∀ (Q s : List Char),
      (∀ c ∈ Q, EC.contains c = false ∧ c ≠ '\x08') →
      s.length + Q.length ≤ calc_maxlen defs →
      run_detector (mk_detector defs EC) Q s =
        some (List.replicate Q.length none, Q.reverse ++ s) := by
  intro Q
  induction Q with
  | nil =>
      intro s _ _
      simp [run_detector]
  | cons c Q ih =>
      intro s hQ hlen
      have hc := hQ c (List.mem_cons_self c Q)
      have hstep := next_typed_char_none_step defs EC hnec c s hc.1 hc.2
        (by simp at hlen; omega)
      simp only [run_detector, hstep]
      rw [ih (c :: s) (fun x hx => hQ x (List.mem_cons_of_mem c hx))
        (by simp at hlen ⊢; omega)]
      simp [List.replicate_succ, List.reverse_cons]

/-- The end-character event right after the flagless pattern was typed
fires: the first yield is the end-char-rule match of the whole pattern,
the erased text is the pattern plus the end character, and the composed
output is the case conformance of the action output plus the end
character. -/
theorem next_typed_char_fire_step (P out EC : List Char) (E : Char)
    (hP : P ≠ []) (hchars : ∀ c ∈ P, EC.contains c = false ∧ c ≠ '\x08')
    (hE : EC.contains E = true) (hEb : E ≠ '\x08') :
    next_typed_char (mk_detector [⟨P, out, []⟩] EC) E P.reverse =
      (case_conform (P ++ [E]) (out ++ [E])).map
        (fun r2 => (some (P ++ [E], r2), ([] : List Char))) := by
  have hreg := single_registry P out [] (by simp)
  have hupd : update_char_state (mk_detector [⟨P, out, []⟩] EC).maxlen E
      P.reverse = E :: P.reverse := by
    unfold update_char_state
    rw [if_neg hEb]
    apply List.take_of_length_le
    rw [mk_detector_maxlen, calc_maxlen_single]
    have h1 : 0 < P.length := List.length_pos.mpr hP
    simp [MIN_BUFFER_SIZE]
    omega
  have htyped : get_last_typed EC (E :: P.reverse) = E :: P.reverse := by
    show E :: P.reverse.takeWhile (fun x => !EC.contains x) = E :: P.reverse
    congr 1
    apply List.takeWhile_eq_self_iff.mpr
    intro x hx
    show (!EC.contains x) = true
    rw [(hchars x (List.mem_reverse.mp hx)).1]
    rfl
  have hhead : (match_results_end_char (add_hotstrings [⟨P, out, []⟩]) EC
      (E :: P.reverse)).head? =
      some (0, E :: P.reverse, ⟨P, out, []⟩, [E]) := by
    have h1 : match_results_end_char (add_hotstrings [⟨P, out, []⟩]) EC
        (E :: P.reverse) =
        (if EC.contains E = true then
          (match_results_case (add_hotstrings [⟨P, out, []⟩]) P.reverse).map
            (fun q => (q.1, E :: q.2.1, q.2.2, [E]))
        else []) ++
        (match_results_case (add_hotstrings [⟨P, out, []⟩])
          (E :: P.reverse)).filterMap
          (fun q => if HFlag.noEndChar ∈ q.2.2.flags then
            some (q.1, q.2.1, q.2.2, ([] : List Char)) else none) := rfl
    rw [h1, if_pos hE, hreg, match_results_case_single]
    by_cases h : P.reverse = py_lower P.reverse
    · rw [if_pos h]
      rfl
    · rw [if_neg h]
      rfl
  have hdet : detect (mk_detector [⟨P, out, []⟩] EC) (E :: P.reverse) =
      some (0, E :: P.reverse, ⟨P, out, []⟩, [E]) := by
    unfold detect
    rw [mk_detector_end_chars, mk_detector_registry, htyped]
    rw [if_neg (by simp)]
    exact hhead
  unfold next_typed_char
  rw [hupd, hdet]
  have hrev : (E :: P.reverse).reverse = P ++ [E] := by
    rw [List.reverse_cons, List.reverse_reverse]
  show (prepare_action (E :: P.reverse).reverse ⟨P, out, []⟩ [E]).map
      (fun a => (some a, [])) = _
  rw [hrev]
  have hpa : prepare_action (P ++ [E]) ⟨P, out, []⟩ [E] =
      (case_conform (P ++ [E]) (out ++ [E])).map
        (fun o => (P ++ [E], o)) := by
    simp [prepare_action, produced_before_case]
  rw [hpa, Option.map_map]
  rfl

/-- C7 counterexample: pattern a-dot (which ends in an end character),
no flags, typed as a, dot, then the end character dot: no event fires —
the claim's promised trigger at the end-character event does not
happen, because the pattern straddles the word boundary. -/
theorem c7_end_char_in_pattern_counterexample :
    run_outputs (mk_detector [⟨"a.".toList, "o".toList, []⟩]
        default_end_chars) "a..".toList = some [none, none, none] := by
  decide

/-- C7 (amended): for a non-empty flagless pattern containing no end
characters and no backspace marker, typing the pattern then an end
character fires exactly at the end-character event: every earlier event
returns nothing, the erased text is the pattern plus the end character,
and the replacement before case conformance is the action output with
the end character appended. -/
theorem c7_flagless_trigger (P out EC : List Char) (E : Char)
    (hP : P ≠ []) (hchars : ∀ c ∈ P, EC.contains c = false ∧ c ≠ '\x08')
    (hE : EC.contains E = true) (hEb : E ≠ '\x08') :
    run_detector (mk_detector [⟨P, out, []⟩] EC) (P ++ [E]) [] =
      (case_conform (P ++ [E]) (out ++ [E])).map
        (fun r => (List.replicate P.length none ++ [some (P ++ [E], r)],
          ([] : List Char))) := by
  have hnec : ∀ df ∈ [(⟨P, out, []⟩ : HotstringDefinition)],
      HFlag.noEndChar ∉ df.flags := by
    intro df hdf
    rw [List.mem_singleton.mp hdf]
    simp
  have hQ : run_detector (mk_detector [⟨P, out, []⟩] EC) P [] =
      some (List.replicate P.length none, P.reverse ++ []) :=
    run_no_fire _ EC hnec P [] hchars (by
      rw [calc_maxlen_single]
      simp [MIN_BUFFER_SIZE]
      omega)
  rw [run_detector_append, hQ]
  rw [show (P.reverse ++ [] : List Char) = P.reverse from List.append_nil _]
  show (run_detector (mk_detector [⟨P, out, []⟩] EC) [E] P.reverse).map
      (fun q2 => (List.replicate P.length none ++ q2.1, q2.2)) = _
  rw [run_detector_single,
    next_typed_char_fire_step P out EC E hP hchars hE hEb]
  cases case_conform (P ++ [E]) (out ++ [E]) <;> simp

/-- Witness for C7 (amended) at the pattern yl with output yield and
the end character space. -/
theorem c7_flagless_trigger_witness :
    run_detector (mk_detector [⟨"yl".toList, "yield".toList, []⟩]
        default_end_chars) ("yl".toList ++ [' ']) [] =
      (case_conform ("yl".toList ++ [' ']) ("yield".toList ++ [' '])).map
        (fun r => (List.replicate ("yl".toList).length none ++
          [some ("yl".toList ++ [' '], r)], ([] : List Char))) :=
  c7_flagless_trigger "yl".toList "yield".toList default_end_chars ' '
    (by decide) (by decide) (by decide) (by decide)

end SpicyStrings
